import Mathlib

/-!
Shallow embedding of `dockq_complex.py` (chain-correspondence and rigid
superposition for multi-chain complex scoring), together with proofs that
settle the frozen claims C1-C10 about it.

Conventions of the embedding:
* Python floats are idealised as exact rationals (`ℚ`) where the code is
  purely arithmetic, and as reals (`ℝ`) where the claims are about the
  SVD-based Kabsch algebra.
* `np.sqrt d <= c` (with `d, c ≥ 0`) is embedded as `d ≤ c ^ 2`: square root
  is strictly monotone on nonnegatives, so every comparison, `argmin` and
  sentinel update performed by the code on the square-root scale is performed
  identically on the squared scale.  Squared-scale sentinels are therefore the
  squares of the source's sentinels (`1e9 ↦ 1e18`).
* `np.linalg.svd` is an oracle: the two orthogonal factors it returns are
  passed to the embedded functions as extra arguments, and theorems constrain
  them by the defining property of an SVD.
* A Python function that can raise (KeyError, AssertionError, broadcasting
  ValueError) is embedded as an `Option`-valued function, `none` = raise.
-/

/-! ## Residue / chain model and the extractor (`parse_chain`, `get_seq`) -/

/-- Coordinates of one atom, exact-rational idealisation of the float triple. -/
abbrev Pt := ℚ × ℚ × ℚ

/-- One atom of a residue: its atom id (`'CA'` is the backbone anchor),
its element symbol (`'H'` = hydrogen) and its coordinate. -/
structure Atom where
  aid : String
  element : String
  coord : Pt
deriving DecidableEq

/-- One residue: `het` embeds `res.id[0] != ' '` (water/heteroatom flag),
`seqnum` embeds `int(res.id[1])` (restricted to positive numbering, the
domain the claims are about), `resname` the three-letter code. -/
structure Res where
  het : Bool
  seqnum : ℕ
  resname : String
  atoms : List Atom
deriving DecidableEq

/-- The `THREE_TO_ONE` table of the source, as a partial map. -/
def THREE_TO_ONE (s : String) : Option Char :=
  if s = "VAL" then some 'V' else if s = "ILE" then some 'I' else
  if s = "LEU" then some 'L' else if s = "GLU" then some 'E' else
  if s = "GLN" then some 'Q' else if s = "ASP" then some 'D' else
  if s = "ASN" then some 'N' else if s = "HIS" then some 'H' else
  if s = "TRP" then some 'W' else if s = "PHE" then some 'F' else
  if s = "TYR" then some 'Y' else if s = "ARG" then some 'R' else
  if s = "LYS" then some 'K' else if s = "SER" then some 'S' else
  if s = "THR" then some 'T' else if s = "MET" then some 'M' else
  if s = "ALA" then some 'A' else if s = "GLY" then some 'G' else
  if s = "PRO" then some 'P' else if s = "CYS" then some 'C' else
  if s = "UNK" then some 'X' else if s = "SEC" then some 'U' else
  if s = "PYL" then some 'O' else none

/-- `'CA' in res` of the source. -/
def hasCA (r : Res) : Bool := r.atoms.any (fun a => a.aid == "CA")

/-- `get_seq` of the source: one symbol per residue (heteroatom entries
included, exactly as `obj.get_residues()` yields them), `'CA' in i` chooses
between the table lookup with `'X'` fallback and the wildcard. -/
def get_seq (rs : List Res) : List Char :=
  rs.map (fun r => if hasCA r then (THREE_TO_ONE r.resname).getD 'X' else 'X')

/-- Accumulator state of the first (per-residue) pass of `parse_chain`:
`seq`, `cals`, `heavls`, `last_res_idx` and `gap_positions` of the source. -/
structure PCState where
  seq : List Char
  cals : List Pt
  heav : List Pt
  last : ℕ
  gaps : List ℕ
deriving DecidableEq

/-- Initial accumulator of `parse_chain`. -/
def pcInit : PCState := ⟨[], [], [], 0, []⟩

/-- One iteration of the residue loop of `parse_chain` (lines 45-68 of the
source).  `none` embeds the KeyError raised by `THREE_TO_ONE[res.resname]`
when a residue with a CA atom has a type code outside the table.  The `pad`
quantity is `delta_idx - 1` clipped at zero, which agrees with the source:
for `delta_idx <= 1` both `'X' * (delta_idx - 1)` and
`range(last_res_idx + 1, res_idx)` are empty. -/
def pcStep (st : PCState) (r : Res) : Option PCState :=
  if r.het then some st else
  let pad := r.seqnum - st.last - 1
  let st1 : PCState :=
    { seq := st.seq ++ List.replicate pad 'X'
      cals := st.cals ++ List.replicate pad ((0 : ℚ), (0 : ℚ), (0 : ℚ))
      heav := st.heav
      last := r.seqnum
      gaps := st.gaps ++ List.range' (st.last + 1) pad }
  if hasCA r then
    match THREE_TO_ONE r.resname with
    | none => none
    | some c =>
      if c = 'X' then
        some { st1 with seq := st1.seq ++ [c],
                        cals := st1.cals ++ [((0 : ℚ), (0 : ℚ), (0 : ℚ))] }
      else
        some { st1 with
          seq := st1.seq ++ [c]
          cals := st1.cals ++ (r.atoms.filter (fun a => a.aid == "CA")).map Atom.coord
          heav := st1.heav ++
            (r.atoms.filter (fun a => a.aid ≠ "CA" ∧ a.element ≠ "H")).map Atom.coord }
  else
    some { st1 with seq := st1.seq ++ ['X'],
                    cals := st1.cals ++ [((0 : ℚ), (0 : ℚ), (0 : ℚ))] }

/-- The whole residue loop of `parse_chain`. -/
def pcLoop (rs : List Res) : Option PCState := rs.foldlM pcStep pcInit

/-- Python's `list.insert(i, x)` for a nonnegative index: insert before
position `i`, append when `i` is beyond the end. -/
def insertAt : List α → ℕ → α → List α
  | l, 0, x => x :: l
  | [], _ + 1, x => [x]
  | a :: l, n + 1, x => a :: insertAt l n x

/-- The placeholder residue `Residue((' ', gap_position, ' '), 'UNK', 0)`
materialised at a gap position: not a heteroatom entry, no atoms. -/
def unkRes (g : ℕ) : Res := ⟨false, g, "UNK", []⟩

/-- The gap-materialisation loop of `parse_chain` (lines 77-79):
`chain.insert(gap_position - 1, unk_residue)` for each recorded gap. -/
def fillGaps (rs : List Res) (gaps : List ℕ) : List Res :=
  gaps.foldl (fun ch g => insertAt ch (g - 1) (unkRes g)) rs

/-- Result of a successful `parse_chain` call: the returned quadruple plus
the chain's residue list as mutated by gap materialisation. -/
structure ParseOut where
  seq : List Char
  cals : List Pt
  mask : List Bool
  heav : List Pt
  filled : List Res
deriving DecidableEq

/-- `parse_chain` of the source.  `none` embeds an exception: the KeyError of
the residue loop, the `len(seq) == ca_pos.shape[0]` assertion, or the
`get_seq(chain) == seq` assertion after gap materialisation. -/
def parse_chain (rs : List Res) : Option ParseOut :=
  match pcLoop rs with
  | none => none
  | some st =>
    if st.seq.length = st.cals.length then
      let filled := fillGaps rs st.gaps
      if get_seq filled = st.seq then
        some ⟨st.seq, st.cals, st.seq.map (fun c => c ≠ 'X'), st.heav, filled⟩
      else none
    else none

/-! ### Closed forms for the extractor

The following functions give the closed form of what `parse_chain` computes
on a well-formed chain (no heteroatom entries, strictly ascending positive
residue numbers, at most one CA atom per residue, CA-carrying type codes in
the table).  They are proved equal to the embedded source functions below:
nothing is assumed, everything is derived from `pcStep`/`fillGaps`. -/

/-- Symbol emitted for one residue (matches both `get_seq` and the residue
loop of `parse_chain` when the table lookup succeeds). -/
def symOf (r : Res) : Char := if hasCA r then (THREE_TO_ONE r.resname).getD 'X' else 'X'

/-- Sequence accumulated by the residue loop from `last_res_idx = b`. -/
def seqSpec : ℕ → List Res → List Char
  | _, [] => []
  | b, r :: rest => List.replicate (r.seqnum - b - 1) 'X' ++ symOf r :: seqSpec r.seqnum rest

/-- Gap positions accumulated by the residue loop from `last_res_idx = b`. -/
def gapsSpec : ℕ → List Res → List ℕ
  | _, [] => []
  | b, r :: rest => List.range' (b + 1) (r.seqnum - b - 1) ++ gapsSpec r.seqnum rest

/-- Anchor-coordinate rows contributed by one residue. -/
def calsRes (r : Res) : List Pt :=
  if symOf r = 'X' then [((0 : ℚ), (0 : ℚ), (0 : ℚ))]
  else (r.atoms.filter (fun a => a.aid == "CA")).map Atom.coord

/-- Anchor-coordinate rows accumulated by the residue loop. -/
def calsSpec : ℕ → List Res → List Pt
  | _, [] => []
  | b, r :: rest =>
    List.replicate (r.seqnum - b - 1) ((0 : ℚ), (0 : ℚ), (0 : ℚ)) ++
      (calsRes r ++ calsSpec r.seqnum rest)

/-- Heavy-atom pool contributed by one residue: nothing unless the residue
carries a CA atom and a non-wildcard symbol, in which case every atom that is
neither the CA atom nor a hydrogen contributes its coordinate, in order. -/
def heavRes (r : Res) : List Pt :=
  if symOf r = 'X' then []
  else (r.atoms.filter (fun a => a.aid ≠ "CA" ∧ a.element ≠ "H")).map Atom.coord

/-- Heavy-atom pool accumulated by the residue loop. -/
def heavSpec (rs : List Res) : List Pt := (rs.map heavRes).flatten

/-- Final `last_res_idx` after the residue loop. -/
def lastSpec : ℕ → List Res → ℕ
  | b, [] => b
  | _, r :: rest => lastSpec r.seqnum rest

/-- The gap-closed residue list: every missing number materialised as an
`UNK` placeholder. -/
def completeSpec : ℕ → List Res → List Res
  | _, [] => []
  | b, r :: rest => (List.range' (b + 1) (r.seqnum - b - 1)).map unkRes ++ r :: completeSpec r.seqnum rest

/-- Residue numbers strictly ascending, starting strictly above `b`. -/
def ascFromB : ℕ → List Res → Bool
  | _, [] => true
  | b, r :: rest => b < r.seqnum && ascFromB r.seqnum rest

/-- The residue loop in closed form (state-generalised). -/
theorem pcLoop_eq (rs : List Res) (st : PCState)
    (h1 : ∀ r ∈ rs, r.het = false)
    (h4 : ∀ r ∈ rs, hasCA r = true → (THREE_TO_ONE r.resname).isSome = true) :
    rs.foldlM pcStep st = some
      { seq := st.seq ++ seqSpec st.last rs
        cals := st.cals ++ calsSpec st.last rs
        heav := st.heav ++ heavSpec rs
        last := lastSpec st.last rs
        gaps := st.gaps ++ gapsSpec st.last rs } := by
  induction rs generalizing st with
  | nil => simp [seqSpec, calsSpec, heavSpec, lastSpec, gapsSpec]
  | cons r rest ih =>
    have hr1 : r.het = false := h1 r (List.mem_cons_self r rest)
    have step : pcStep st r = some
        { seq := st.seq ++ (List.replicate (r.seqnum - st.last - 1) 'X' ++ [symOf r])
          cals := st.cals ++ (List.replicate (r.seqnum - st.last - 1) ((0 : ℚ), (0 : ℚ), (0 : ℚ)) ++ calsRes r)
          heav := st.heav ++ heavRes r
          last := r.seqnum
          gaps := st.gaps ++ List.range' (st.last + 1) (r.seqnum - st.last - 1) } := by
      by_cases hca : hasCA r = true
      · have h4r := h4 r (List.mem_cons_self r rest) hca
        obtain ⟨c, hc⟩ := Option.isSome_iff_exists.mp h4r
        have hsym : symOf r = c := by simp [symOf, hca, hc]
        by_cases hcx : c = 'X'
        · simp [pcStep, hr1, hca, hc, hcx, hsym, calsRes, heavRes, List.append_assoc]
        · simp [pcStep, hr1, hca, hc, hcx, hsym, calsRes, heavRes, List.append_assoc]
      · have hsym : symOf r = 'X' := by simp [symOf, hca]
        simp [pcStep, hr1, hca, hsym, calsRes, heavRes, List.append_assoc]
    rw [List.foldlM_cons, step]
    show List.foldlM pcStep _ rest = _
    rw [ih _ (fun x hx => h1 x (List.mem_cons_of_mem r hx))
          (fun x hx => h4 x (List.mem_cons_of_mem r hx))]
    simp only [seqSpec, calsSpec, heavSpec, lastSpec, gapsSpec, List.map_cons, List.flatten_cons]
    congr 1
    simp [List.append_assoc]

/-- `get_seq` is a per-residue map of `symOf`. -/
theorem get_seq_eq_map (rs : List Res) : get_seq rs = rs.map symOf := rfl

/-- Inserting exactly after a prefix of known length. -/
theorem insertAt_prefix (done rest : List α) (x : α) :
    insertAt (done ++ rest) done.length x = done ++ x :: rest := by
  induction done with
  | nil => simp [insertAt]
  | cons a l ih => simpa [insertAt] using ih

/-- One run of consecutive gap insertions, between a settled prefix of length
`b` and the rest of the chain. -/
theorem fillGaps_run (m : ℕ) : ∀ (done rest : List Res) (b : ℕ), done.length = b →
    (List.range' (b + 1) m).foldl (fun ch g => insertAt ch (g - 1) (unkRes g)) (done ++ rest)
      = done ++ (List.range' (b + 1) m).map unkRes ++ rest := by
  induction m with
  | zero => intro done rest b _; simp
  | succ k ih =>
    intro done rest b hb
    rw [List.range'_succ, List.foldl_cons]
    have h1 : insertAt (done ++ rest) (b + 1 - 1) (unkRes (b + 1)) = done ++ unkRes (b + 1) :: rest := by
      simpa [hb] using insertAt_prefix done rest (unkRes (b + 1))
    rw [h1]
    have h2 := ih (done ++ [unkRes (b + 1)]) rest (b + 1) (by simp [hb])
    rw [show done ++ unkRes (b + 1) :: rest = (done ++ [unkRes (b + 1)]) ++ rest by simp]
    rw [h2]
    simp

/-- The whole gap-materialisation pass, in closed form: it interleaves the
`UNK` placeholders into their numeric positions. -/
theorem fillGaps_eq : ∀ (l done : List Res) (b : ℕ), done.length = b → ascFromB b l = true →
    (gapsSpec b l).foldl (fun ch g => insertAt ch (g - 1) (unkRes g)) (done ++ l)
      = done ++ completeSpec b l := by
  intro l
  induction l with
  | nil => intro done b _ _; simp [gapsSpec, completeSpec]
  | cons r rest ih =>
    intro done b hb hasc
    obtain ⟨hlt, hasc'⟩ : b < r.seqnum ∧ ascFromB r.seqnum rest = true := by
      simpa [ascFromB] using hasc
    rw [gapsSpec, List.foldl_append]
    rw [fillGaps_run (r.seqnum - b - 1) done (r :: rest) b hb]
    have hkey : done ++ (List.range' (b + 1) (r.seqnum - b - 1)).map unkRes ++ r :: rest
        = (done ++ (List.range' (b + 1) (r.seqnum - b - 1)).map unkRes ++ [r]) ++ rest := by
      simp
    rw [hkey, ih (done ++ (List.range' (b + 1) (r.seqnum - b - 1)).map unkRes ++ [r]) r.seqnum
      (by simp [hb]; omega) hasc']
    simp [completeSpec]

/-- Re-extracting the sequence from the gap-closed chain reproduces the
closed-form sequence. -/
theorem get_seq_completeSpec : ∀ (l : List Res) (b : ℕ),
    get_seq (completeSpec b l) = seqSpec b l := by
  intro l
  induction l with
  | nil => intro b; rfl
  | cons r rest ih =>
    intro b
    have h1 : get_seq ((List.range' (b + 1) (r.seqnum - b - 1)).map unkRes)
        = List.replicate (r.seqnum - b - 1) 'X' := by
      rw [get_seq_eq_map, List.map_map]
      refine List.eq_replicate_iff.mpr ⟨by simp, ?_⟩
      intro c hc
      simp only [List.mem_map] at hc
      obtain ⟨g, _, hcg⟩ := hc
      rw [← hcg]
      rfl
    rw [completeSpec, get_seq_eq_map, List.map_append, List.map_cons,
      ← get_seq_eq_map, h1, seqSpec]
    congr 1
    congr 1
    exact ih r.seqnum

/-- Row-count bookkeeping: each residue contributes exactly as many anchor
rows as sequence symbols, provided no residue carries two CA atoms. -/
theorem calsSpec_length : ∀ (l : List Res) (b : ℕ),
    (∀ r ∈ l, r.atoms.countP (fun a => a.aid == "CA") ≤ 1) →
    (calsSpec b l).length = (seqSpec b l).length := by
  intro l
  induction l with
  | nil => intro b _; rfl
  | cons r rest ih =>
    intro b h3
    have hr : (calsRes r).length = 1 := by
      by_cases hx : symOf r = 'X'
      · simp [calsRes, hx]
      · have hca : hasCA r = true := by
          by_contra hc
          exact hx (by simp [symOf, hc])
        have hpos : 0 < r.atoms.countP (fun a => a.aid == "CA") := by
          rw [List.countP_pos_iff]
          simpa [hasCA, List.any_eq_true] using hca
        have hle := h3 r (List.mem_cons_self r rest)
        have hone : r.atoms.countP (fun a => a.aid == "CA") = 1 := le_antisymm hle hpos
        simp [calsRes, hx, ← List.countP_eq_length_filter, hone]
    have ihh := ih r.seqnum (fun x hx => h3 x (List.mem_cons_of_mem r hx))
    simp only [calsSpec, seqSpec, List.length_append, List.length_replicate, List.length_cons,
      hr, ihh]
    omega

/-- Master characterisation of `parse_chain` on a well-formed chain: the
call succeeds and every component has its closed form. -/
theorem parse_chain_eq (rs : List Res)
    (h1 : ∀ r ∈ rs, r.het = false)
    (h2 : ascFromB 0 rs = true)
    (h3 : ∀ r ∈ rs, r.atoms.countP (fun a => a.aid == "CA") ≤ 1)
    (h4 : ∀ r ∈ rs, hasCA r = true → (THREE_TO_ONE r.resname).isSome = true) :
    parse_chain rs = some
      ⟨seqSpec 0 rs, calsSpec 0 rs, (seqSpec 0 rs).map (fun c => c ≠ 'X'),
        heavSpec rs, completeSpec 0 rs⟩ := by
  have hloop := pcLoop_eq rs pcInit h1 h4
  have hfill : fillGaps rs (gapsSpec 0 rs) = completeSpec 0 rs := by
    simpa [fillGaps] using fillGaps_eq rs [] 0 rfl h2
  rw [parse_chain]
  rw [show pcLoop rs = rs.foldlM pcStep pcInit from rfl, hloop]
  simp only [pcInit, List.nil_append]
  rw [if_pos (calsSpec_length rs 0 h3).symm, hfill, if_pos (get_seq_completeSpec rs 0)]

/-- If some standard residue carries a CA atom but a type code outside the
table, the residue loop raises (KeyError), whatever state it starts from. -/
theorem pcLoop_none : ∀ (rs : List Res) (st : PCState),
    (∃ r ∈ rs, r.het = false ∧ hasCA r = true ∧ THREE_TO_ONE r.resname = none) →
    rs.foldlM pcStep st = none := by
  intro rs
  induction rs with
  | nil => intro st hex; simp at hex
  | cons r rest ih =>
    intro st hex
    obtain ⟨x, hx, hxh, hxca, hxt⟩ := hex
    rw [List.foldlM_cons]
    rcases List.mem_cons.mp hx with heq | h
    · have hnone : pcStep st x = none := by
        simp [pcStep, hxh, hxca, hxt]
      rw [heq] at hnone
      rw [hnone]
      rfl
    · cases hstep : pcStep st r with
      | none => rfl
      | some st2 =>
        show rest.foldlM pcStep st2 = none
        exact ih st2 ⟨x, h, hxh, hxca, hxt⟩

/-! ## Claim C5 (gap round-trip of the extractor) -/

/-- C5 (confirmed): for any chain in the extractor's input domain (standard
residue entries, strictly ascending positive residue numbers — the order in
which the spec iterates residues — at most one CA atom per residue, type
codes of CA-carrying residues in the table), in particular for any such chain
numbered non-consecutively, `parse_chain` succeeds, the sequence re-extracted
by `get_seq` from the chain after placeholder materialisation equals the
sequence of the gap-filling pass, and the sequence length equals the number
of anchor-coordinate rows. -/
theorem parse_chain_gap_roundtrip (rs : List Res)
    (h1 : ∀ r ∈ rs, r.het = false)
    (h2 : ascFromB 0 rs = true)
    (h3 : ∀ r ∈ rs, r.atoms.countP (fun a => a.aid == "CA") ≤ 1)
    (h4 : ∀ r ∈ rs, hasCA r = true → (THREE_TO_ONE r.resname).isSome = true) :
    ∃ out, parse_chain rs = some out ∧ get_seq out.filled = out.seq ∧
      out.seq.length = out.cals.length := by
  refine ⟨_, parse_chain_eq rs h1 h2 h3 h4, ?_, ?_⟩
  · exact get_seq_completeSpec rs 0
  · exact (calsSpec_length rs 0 h3).symm

/-- A gapped two-residue chain (residues numbered 1 and 4). -/
def chainW5 : List Res :=
  [⟨false, 1, "ALA", [⟨"CA", "C", (1, 2, 3)⟩]⟩,
   ⟨false, 4, "GLY", [⟨"CA", "C", (4, 4, 4)⟩]⟩]

/-- Witness for C5 on the concrete gapped chain `chainW5`. -/
theorem parse_chain_gap_roundtrip_witness :
    ∃ out, parse_chain chainW5 = some out ∧ get_seq out.filled = out.seq ∧
      out.seq.length = out.cals.length :=
  parse_chain_gap_roundtrip chainW5 (by decide) (by decide) (by decide) (by decide)

/-! ## Claim C8 (heavy-atom pool contents) -/

/-- A valid (CA-carrying) alanine residue with a CA atom at `(1,2,3)`, a
nitrogen at `(4,5,6)` and a hydrogen at `(7,8,9)`. -/
def chainC8 : List Res :=
  [⟨false, 1, "ALA",
    [⟨"CA", "C", (1, 2, 3)⟩, ⟨"N", "N", (4, 5, 6)⟩, ⟨"HB2", "H", (7, 8, 9)⟩]⟩]

/-- The output `parse_chain` produces on `chainC8`. -/
def outC8 : ParseOut := ⟨['A'], [(1, 2, 3)], [true], [(4, 5, 6)], chainC8⟩

/-- C8 counterexample: on a valid residue with CA atom at `(1,2,3)`, the
heavy-atom pool is `[(4,5,6)]` — the CA coordinate is routed to the anchor
array by the `if/elif` of lines 65-68 and is NOT accumulated into the
heavy-atom pool, contradicting the claim's "including the CA atom itself". -/
theorem c8_ca_not_in_heavy_pool :
    parse_chain chainC8 = some outC8 ∧ outC8.cals = [((1 : ℚ), (2 : ℚ), (3 : ℚ))] ∧
      ((1, 2, 3) : Pt) ∉ outC8.heav := by decide

/-- C8 (amended): for every residue carrying a CA atom and a non-wildcard
symbol, the coordinate of every non-hydrogen atom other than the CA atoms is
accumulated, in order, into the heavy-atom pool (`heavRes`); the CA
coordinate goes to the anchor-coordinate array instead (`calsRes`); residues
without CA, with the wildcard symbol, or heteroatom entries contribute
nothing to the pool. -/
theorem parse_chain_heavy_pool (rs : List Res)
    (h1 : ∀ r ∈ rs, r.het = false)
    (h2 : ascFromB 0 rs = true)
    (h3 : ∀ r ∈ rs, r.atoms.countP (fun a => a.aid == "CA") ≤ 1)
    (h4 : ∀ r ∈ rs, hasCA r = true → (THREE_TO_ONE r.resname).isSome = true) :
    ∃ out, parse_chain rs = some out ∧ out.heav = heavSpec rs ∧ out.cals = calsSpec 0 rs :=
  ⟨_, parse_chain_eq rs h1 h2 h3 h4, rfl, rfl⟩

/-- Witness for the amended C8 on `chainC8`: the pool is exactly the
non-hydrogen, non-CA coordinates. -/
theorem parse_chain_heavy_pool_witness :
    (∃ out, parse_chain chainC8 = some out ∧ out.heav = heavSpec chainC8 ∧
      out.cals = calsSpec 0 chainC8) ∧ heavSpec chainC8 = [((4 : ℚ), (5 : ℚ), (6 : ℚ))] :=
  ⟨parse_chain_heavy_pool chainC8 (by decide) (by decide) (by decide) (by decide), by decide⟩

/-! ## Claim C9 (totality of the extractor over residue type codes) -/

/-- A CA-carrying residue with a type code outside the table. -/
def chainC9 : List Res := [⟨false, 1, "XYZ", [⟨"CA", "C", (0, 0, 0)⟩]⟩]

/-- C9 counterexample: a residue containing a backbone-anchor CA atom whose
three-letter code `XYZ` is outside the table makes `parse_chain` raise
(`THREE_TO_ONE[res.resname]` is a bare dict indexing, KeyError), rather than
emit the substitute symbol: extraction is not total over type codes. -/
theorem c9_unknown_code_raises :
    parse_chain chainC9 = none ∧ hasCA ⟨false, 1, "XYZ", [⟨"CA", "C", (0, 0, 0)⟩]⟩ = true := by
  decide

/-- C9 (amended): on a well-formed chain, extraction succeeds and emits one
symbol per position — with `UNK` mapped to the substitute `'X'` — exactly
when every CA-carrying residue's type code is in the table; if some
CA-carrying standard residue has a code outside the table, `parse_chain`
raises (KeyError) instead.  Only `get_seq` maps unknown codes to the
substitute (`.get(resname, 'X')`); the extractor's own lookup is bare
indexing. -/
theorem parse_chain_code_totality (rs : List Res)
    (h1 : ∀ r ∈ rs, r.het = false)
    (h2 : ascFromB 0 rs = true)
    (h3 : ∀ r ∈ rs, r.atoms.countP (fun a => a.aid == "CA") ≤ 1) :
    ((∀ r ∈ rs, hasCA r = true → (THREE_TO_ONE r.resname).isSome = true) →
      ∃ out, parse_chain rs = some out ∧ out.seq = seqSpec 0 rs) ∧
    ((∃ r ∈ rs, hasCA r = true ∧ THREE_TO_ONE r.resname = none) → parse_chain rs = none) := by
  constructor
  · intro h4
    exact ⟨_, parse_chain_eq rs h1 h2 h3 h4, rfl⟩
  · intro hex
    obtain ⟨x, hx, hxca, hxt⟩ := hex
    have : pcLoop rs = none := pcLoop_none rs pcInit ⟨x, hx, h1 x hx, hxca, hxt⟩
    rw [parse_chain, show pcLoop rs = rs.foldlM pcStep pcInit from rfl]
    rw [show rs.foldlM pcStep pcInit = none from this]

/-- Witness for the amended C9: a table-coded chain succeeds, an off-table
CA-carrying chain raises. -/
theorem parse_chain_code_totality_witness :
    (∃ out, parse_chain chainW5 = some out ∧ out.seq = seqSpec 0 chainW5) ∧
      parse_chain chainC9 = none :=
  ⟨(parse_chain_code_totality chainW5 (by decide) (by decide) (by decide)).1 (by decide),
   (parse_chain_code_totality chainC9 (by decide) (by decide) (by decide)).2 (by decide)⟩

/-! ## Contact detection (`has_contact`) with NumPy broadcasting semantics

`parse_chain` builds the heavy pool as `np.array(heavls)`: a list of triples
gives shape `(M, 3)`, but the empty list gives shape `(0,)`.  `has_contact`
computes `np.expand_dims(chain1, 1) - chain2[None, :]`, which broadcasts the
two shapes; for degenerate shapes this can raise a ValueError.  The shape
arithmetic is embedded exactly (right-aligned dimension matching, `1`
stretches, mismatch raises), and on an empty broadcast result `.any()` is
`False`. -/

/-- Squared Euclidean distance between two points (squared-scale embedding of
`np.sqrt(((a-b)**2).sum(-1))`, see the file header). -/
def sqDist (p q : Pt) : ℚ :=
  (p.1 - q.1) ^ 2 + (p.2.1 - q.2.1) ^ 2 + (p.2.2 - q.2.2) ^ 2

/-- Shape of `np.array` of a list of coordinate triples: `(M, 3)` when
non-empty, `(0,)` when empty. -/
def npShape (l : List Pt) : List ℕ := if l.isEmpty then [0] else [l.length, 3]

/-- Shape of `np.expand_dims(a, 1)`. -/
def expandDims1 : List ℕ → List ℕ
  | [] => [1]
  | a :: rest => a :: 1 :: rest

/-- Shape of `b[None, :]`. -/
def prepend1 (sh : List ℕ) : List ℕ := 1 :: sh

/-- NumPy pairwise dimension compatibility: equal, or one side is 1. -/
def bdim (a b : ℕ) : Option ℕ :=
  if a = b then some a else if a = 1 then some b else if b = 1 then some a else none

/-- Broadcast of two reversed (innermost-first) shape lists. -/
def bcRev : List ℕ → List ℕ → Option (List ℕ)
  | [], t => some t
  | s, [] => some s
  | a :: s, b :: t =>
    match bdim a b, bcRev s t with
    | some d, some r => some (d :: r)
    | _, _ => none

/-- NumPy broadcast of two shapes (right-aligned). -/
def broadcastShapes (s t : List ℕ) : Option (List ℕ) :=
  (bcRev s.reverse t.reverse).map List.reverse

/-- `has_contact` of the source: `none` embeds the broadcasting ValueError;
otherwise the result of `(dist <= 5).any()`, which on a non-degenerate
broadcast is "some pair of atoms within distance 5" (squared scale: `≤ 25`)
and on an empty broadcast result is `False`. -/
def has_contact (chain1 chain2 : List Pt) : Option Bool :=
  match broadcastShapes (expandDims1 (npShape chain1)) (prepend1 (npShape chain2)) with
  | none => none
  | some sh =>
    some (if sh.contains 0 then false
          else decide (∃ a ∈ chain1, ∃ b ∈ chain2, sqDist a b ≤ 5 ^ 2))

/-! ## Claim C7 (contact symmetry and the 5.0 threshold) -/

/-- C7 counterexample: `has_contact` is not symmetric on all heavy-atom
pools.  With an empty first pool (shape `(0,)`) and a single-atom second pool
the broadcast `(0,1) vs (1,1,3)` succeeds and yields `False`, but in the
reversed order the broadcast `(1,1,3) vs (1,0)` fails on the trailing
dimensions `3 vs 0`, so the call raises a ValueError. -/
theorem c7_contact_not_symmetric :
    has_contact [] [((0 : ℚ), (0 : ℚ), (0 : ℚ))] = some false ∧
      has_contact [((0 : ℚ), (0 : ℚ), (0 : ℚ))] [] = none := by decide

/-- C7 (amended): restricted to non-empty heavy-atom pools, contact detection
is total and symmetric, and contact holds exactly when some atom of one pool
is within Euclidean distance 5.0 of some atom of the other (squared scale:
`sqDist ≤ 25`); in particular two single-atom pools at squared distance
exactly `25` are in contact, and at squared distance `> 25` are not. -/
theorem has_contact_symm_threshold (A B : List Pt) (p q : Pt)
    (hA : A ≠ []) (hB : B ≠ []) :
    has_contact A B = has_contact B A ∧
    (has_contact A B = some true ↔ ∃ a ∈ A, ∃ b ∈ B, sqDist a b ≤ 5 ^ 2) ∧
    (has_contact [p] [q] = some true ↔ sqDist p q ≤ 5 ^ 2) ∧
    (5 ^ 2 < sqDist p q → has_contact [p] [q] = some false) := by
  obtain ⟨a0, A', rfl⟩ : ∃ x xs, A = x :: xs := by
    cases A with
    | nil => exact absurd rfl hA
    | cons x xs => exact ⟨x, xs, rfl⟩
  obtain ⟨b0, B', rfl⟩ : ∃ x xs, B = x :: xs := by
    cases B with
    | nil => exact absurd rfl hB
    | cons x xs => exact ⟨x, xs, rfl⟩
  have hcomp : ∀ (x : Pt) (xs : List Pt) (y : Pt) (ys : List Pt),
      has_contact (x :: xs) (y :: ys) =
        some (decide (∃ a ∈ x :: xs, ∃ b ∈ y :: ys, sqDist a b ≤ 5 ^ 2)) := by
    intro x xs y ys
    by_cases hxs : xs = [] <;> by_cases hys : ys = [] <;>
      simp [has_contact, npShape, expandDims1, prepend1, broadcastShapes, bcRev, bdim, hxs, hys]
  have hsym : ∀ (a b : Pt), sqDist a b = sqDist b a := by
    intro a b
    simp [sqDist]
    ring
  refine ⟨?_, ?_, ?_, ?_⟩
  · rw [hcomp, hcomp]
    congr 1
    simp only [decide_eq_decide]
    constructor
    · rintro ⟨a, ha, b, hb, hd⟩
      exact ⟨b, hb, a, ha, by rw [hsym]; exact hd⟩
    · rintro ⟨b, hb, a, ha, hd⟩
      exact ⟨a, ha, b, hb, by rw [hsym]; exact hd⟩
  · rw [hcomp]
    simp
  · rw [hcomp]
    simp
  · intro hgt
    rw [hcomp]
    simp only [Option.some.injEq, decide_eq_false_iff_not]
    simp only [List.mem_singleton]
    rintro ⟨a, rfl, b, rfl, hd⟩
    exact absurd hd (not_le.mpr hgt)

/-- Witness for the amended C7: two single-atom pools at distance exactly 5
are in contact, symmetrically; at distance greater than 5 they are not. -/
theorem has_contact_symm_threshold_witness :
    has_contact [((0 : ℚ), 0, 0)] [((5 : ℚ), 0, 0)] =
        has_contact [((5 : ℚ), 0, 0)] [((0 : ℚ), 0, 0)] ∧
      has_contact [((0 : ℚ), 0, 0)] [((5 : ℚ), 0, 0)] = some true ∧
      has_contact [((0 : ℚ), 0, 0)] [((51 / 10 : ℚ), 0, 0)] = some false := by
  have h := has_contact_symm_threshold [((0 : ℚ), 0, 0)] [((5 : ℚ), 0, 0)]
    ((0 : ℚ), 0, 0) ((5 : ℚ), 0, 0) (by decide) (by decide)
  have h2 := has_contact_symm_threshold [((0 : ℚ), 0, 0)] [((51 / 10 : ℚ), 0, 0)]
    ((0 : ℚ), 0, 0) ((51 / 10 : ℚ), 0, 0) (by decide) (by decide)
  refine ⟨h.1, h.2.2.1.mpr (by norm_num [sqDist]), h2.2.2.2 (by norm_num [sqDist])⟩

/-! ## Claim C10 (degenerate pools in `has_contact`) -/

/-- C10 counterexample: with an empty first pool and a second pool of two
atoms, the broadcast of shapes `(0,1)` and `(1,2,3)` fails (`0 vs 2`), so
`has_contact` raises a ValueError instead of returning `False`. -/
theorem c10_empty_pool_raises :
    has_contact [] [((0 : ℚ), 0, 0), ((1 : ℚ), 1, 1)] = none := by decide

/-- C10 (amended): with an empty first heavy-atom pool, `has_contact` returns
`False` without raising only when the other pool has at most one atom; with
an empty first pool against two or more atoms, and with a non-empty first
pool against an empty second pool, NumPy broadcasting of the `(0,)`-shaped
empty array fails and the call raises. -/
theorem has_contact_empty_pool (B : List Pt) :
    (B.length ≤ 1 → has_contact [] B = some false) ∧
    (2 ≤ B.length → has_contact [] B = none) ∧
    (B ≠ [] → has_contact B [] = none) := by
  refine ⟨?_, ?_, ?_⟩
  · intro hle
    match B with
    | [] => decide
    | [b] =>
      simp [has_contact, npShape, expandDims1, prepend1, broadcastShapes, bcRev, bdim]
    | b1 :: b2 :: bs => simp at hle
  · intro hge
    match B with
    | [] => simp at hge
    | [b] => simp at hge
    | b1 :: b2 :: bs =>
      simp only [has_contact, npShape, expandDims1, prepend1, broadcastShapes]
      have hlen : (b1 :: b2 :: bs).length = bs.length + 2 := by simp
      simp [bcRev, bdim, hlen]
  · intro hne
    match B with
    | [] => exact absurd rfl hne
    | b :: bs =>
      simp [has_contact, npShape, expandDims1, prepend1, broadcastShapes, bcRev, bdim]

/-- Witness for the amended C10 at concrete pools. -/
theorem has_contact_empty_pool_witness :
    has_contact [] [((7 : ℚ), 8, 9)] = some false ∧
      has_contact [] [((7 : ℚ), 8, 9), ((1 : ℚ), 1, 1)] = none ∧
      has_contact [((7 : ℚ), 8, 9)] [] = none :=
  ⟨(has_contact_empty_pool [((7 : ℚ), 8, 9)]).1 (by decide),
   (has_contact_empty_pool [((7 : ℚ), 8, 9), ((1 : ℚ), 1, 1)]).2.1 (by decide),
   (has_contact_empty_pool [((7 : ℚ), 8, 9)]).2.2 (by decide)⟩

/-! ## The greedy assignment (`find_optimal_permutation`)

The source computes `d_kl = np.sqrt(((x_mean_pred - x_mean_truth[None])**2).sum(-1))`
and then repeatedly takes `argmin` of a column and overwrites the chosen row
with the sentinel `1e9`.  On the squared scale (see the file header) the
matrix entry is `sqDist` and the sentinel is `1e18 = big2`; `np.argmin`
returns the first index attaining the minimum. -/

/-- Squared-scale sentinel: the square of the source's `1e9` overwrite. -/
def big2 : ℚ := 1000000000000000000

/-- `np.argmin` over a non-empty index type: first index attaining the
minimum. -/
def argminFin {K : ℕ} [NeZero K] (f : Fin K → ℚ) : Fin K :=
  (List.finRange K).foldl (fun b k => if f k < f b then k else b)
    ⟨0, Nat.pos_of_ne_zero (NeZero.ne K)⟩

/-- The column loop of `find_optimal_permutation`: for each ground-truth
column in turn, pick the predicted row of minimum remaining distance and
overwrite that row with the sentinel. -/
def greedyGo {K L : ℕ} [NeZero K] : List (Fin L) → (Fin K → Fin L → ℚ) → List (Fin K)
  | [], _ => []
  | l :: ls, d =>
    let best := argminFin (fun k => d k l)
    best :: greedyGo ls (fun k l2 => if k = best then big2 else d k l2)

/-- `find_optimal_permutation` of the source: build the (squared-scale)
distance matrix of predicted mean positions against transformed truth mean
positions, then run the greedy column loop over all columns. -/
def find_optimal_permutation {K L : ℕ} [NeZero K] (xmp : Fin K → Fin L → Pt)
    (xmt : Fin L → Pt) : List (Fin K) :=
  greedyGo (List.finRange L) (fun k l => sqDist (xmp k l) (xmt l))

/-- The fold computing `argminFin` attains a minimum over the seed and the
scanned indices. -/
theorem argminFin_le {K : ℕ} [NeZero K] (f : Fin K → ℚ) (k : Fin K) :
    f (argminFin f) ≤ f k := by
  have main : ∀ (l : List (Fin K)) (b : Fin K),
      f (l.foldl (fun b x => if f x < f b then x else b) b) ≤ f b ∧
      ∀ x ∈ l, f (l.foldl (fun b x => if f x < f b then x else b) b) ≤ f x := by
    intro l
    induction l with
    | nil => intro b; exact ⟨le_refl _, by simp⟩
    | cons a t ih =>
      intro b
      simp only [List.foldl_cons]
      by_cases h : f a < f b
      · rw [if_pos h]
        refine ⟨le_trans (ih a).1 (le_of_lt h), ?_⟩
        intro x hx
        rcases List.mem_cons.mp hx with hxa | hx
        · rw [hxa]; exact (ih a).1
        · exact (ih a).2 x hx
      · rw [if_neg h]
        refine ⟨(ih b).1, ?_⟩
        intro x hx
        rcases List.mem_cons.mp hx with hxa | hx
        · rw [hxa]; exact le_trans (ih b).1 (not_lt.mp h)
        · exact (ih b).2 x hx
  exact (main (List.finRange K) _).2 k (List.mem_finRange k)

/-- Invariant of the greedy column loop: provided candidate entries are below
the sentinel, non-candidate entries at or above it, already-chosen rows are
overwritten to the sentinel exactly, and the `p`-th remaining column always
has more candidates than rows chosen so far, the loop picks one fresh
candidate row per column. -/
theorem greedyGo_invariant {K L : ℕ} [NeZero K] (C : Fin L → Finset (Fin K)) :
    ∀ (cols : List (Fin L)) (d : Fin K → Fin L → ℚ) (chosen : Finset (Fin K)),
    (∀ l ∈ cols, ∀ k ∈ chosen, d k l = big2) →
    (∀ l ∈ cols, ∀ k, k ∉ chosen → k ∈ C l → d k l < big2) →
    (∀ l ∈ cols, ∀ k, k ∉ chosen → k ∉ C l → big2 ≤ d k l) →
    (∀ (p : ℕ) (hp : p < cols.length), chosen.card + p < (C (cols.get ⟨p, hp⟩)).card) →
    (greedyGo cols d).length = cols.length ∧
    (∀ k ∈ greedyGo cols d, k ∉ chosen) ∧
    (greedyGo cols d).Nodup ∧
    ∀ (p : ℕ) (hp : p < (greedyGo cols d).length) (hq : p < cols.length),
      (greedyGo cols d).get ⟨p, hp⟩ ∈ C (cols.get ⟨p, hq⟩) := by
  intro cols
  induction cols with
  | nil =>
    intro d chosen _ _ _ _
    refine ⟨rfl, by simp [greedyGo], by simp [greedyGo], ?_⟩
    intro p hp
    simp [greedyGo] at hp
  | cons l ls ih =>
    intro d chosen ha hb hc hcard
    have hmeml : l ∈ l :: ls := List.mem_cons_self l ls
    have hcard0 : chosen.card < (C l).card := by
      have := hcard 0 (by simp)
      simpa using this
    have hex : ∃ k0, k0 ∈ C l ∧ k0 ∉ chosen := by
      by_contra hno
      push_neg at hno
      have hsub : C l ⊆ chosen := fun k hk => hno k hk
      exact absurd (Finset.card_le_card hsub) (not_le.mpr hcard0)
    obtain ⟨k0, hk0C, hk0ch⟩ := hex
    have hlt : d (argminFin (fun k => d k l)) l < big2 :=
      lt_of_le_of_lt (argminFin_le (fun k => d k l) k0) (hb l hmeml k0 hk0ch hk0C)
    have hbch : argminFin (fun k => d k l) ∉ chosen := by
      intro hmem
      rw [ha l hmeml _ hmem] at hlt
      exact lt_irrefl big2 hlt
    have hbC : argminFin (fun k => d k l) ∈ C l := by
      by_contra hnc
      exact absurd hlt (not_lt.mpr (hc l hmeml _ hbch hnc))
    have hunfold : greedyGo (l :: ls) d =
        argminFin (fun k => d k l) ::
          greedyGo ls (fun k l2 => if k = argminFin (fun k => d k l) then big2 else d k l2) := rfl
    have ih2 := ih (fun k l2 => if k = argminFin (fun k => d k l) then big2 else d k l2)
      (insert (argminFin (fun k => d k l)) chosen)
      (by
        intro l2 hl2 k hk
        show (if k = argminFin (fun k => d k l) then big2 else d k l2) = big2
        rcases Finset.mem_insert.mp hk with hkb | hkc
        · rw [if_pos hkb]
        · have hne : k ≠ argminFin (fun k => d k l) := by
            intro hkeq
            exact hbch (hkeq ▸ hkc)
          rw [if_neg hne]
          exact ha l2 (List.mem_cons_of_mem l hl2) k hkc)
      (by
        intro l2 hl2 k hkch hkC
        show (if k = argminFin (fun k => d k l) then big2 else d k l2) < big2
        have hne : k ≠ argminFin (fun k => d k l) :=
          fun hkeq => hkch (hkeq ▸ Finset.mem_insert_self _ _)
        rw [if_neg hne]
        exact hb l2 (List.mem_cons_of_mem l hl2) k
          (fun hmem => hkch (Finset.mem_insert_of_mem hmem)) hkC)
      (by
        intro l2 hl2 k hkch hkC
        show big2 ≤ (if k = argminFin (fun k => d k l) then big2 else d k l2)
        have hne : k ≠ argminFin (fun k => d k l) :=
          fun hkeq => hkch (hkeq ▸ Finset.mem_insert_self _ _)
        rw [if_neg hne]
        exact hc l2 (List.mem_cons_of_mem l hl2) k
          (fun hmem => hkch (Finset.mem_insert_of_mem hmem)) hkC)
      (by
        intro p hp
        have hcc : (insert (argminFin (fun k => d k l)) chosen).card = chosen.card + 1 :=
          Finset.card_insert_of_not_mem hbch
        have hp1 : p + 1 < (l :: ls).length := by simpa using Nat.succ_lt_succ hp
        have := hcard (p + 1) hp1
        have hget : (l :: ls).get ⟨p + 1, hp1⟩ = ls.get ⟨p, hp⟩ := rfl
        rw [hget] at this
        omega)
    rw [hunfold]
    refine ⟨by simpa using ih2.1, ?_, ?_, ?_⟩
    · intro k hk
      rcases List.mem_cons.mp hk with hkb | hkr
      · rw [hkb]; exact hbch
      · intro hkc
        exact ih2.2.1 k hkr (Finset.mem_insert_of_mem hkc)
    · rw [List.nodup_cons]
      refine ⟨?_, ih2.2.2.1⟩
      intro hmem
      exact ih2.2.1 _ hmem (Finset.mem_insert_self _ _)
    · intro p hp hq
      match p with
      | 0 => exact hbC
      | p + 1 =>
        have hp2 : p < (greedyGo ls (fun k l2 =>
            if k = argminFin (fun k => d k l) then big2 else d k l2)).length := by
          simpa using Nat.lt_of_succ_lt_succ hp
        have hq2 : p < ls.length := Nat.lt_of_succ_lt_succ hq
        exact ih2.2.2.2 p hp2 hq2

/-- C2 counterexample: the greedy assignment is not injective for every
distance matrix over equal chain counts.  With truth centroids at the origin,
predicted rows at distance `0` and `2` for the first column, and both rows at
squared distance `4e18` (beyond the squared sentinel `1e18`) for the second
column, the first column picks row 0 and overwrites it with the sentinel;
the second column then finds the sentinel `1e18` smaller than both genuine
entries and picks row 0 again — the same predicted chain twice. -/
theorem c2_greedy_not_injective :
    find_optimal_permutation
        (fun (k : Fin 2) (l : Fin 2) =>
          if l = 0 then (if k = 0 then ((0 : ℚ), (0 : ℚ), (0 : ℚ)) else ((2 : ℚ), 0, 0))
          else ((2000000000 : ℚ), 0, 0))
        (fun _ => ((0 : ℚ), (0 : ℚ), (0 : ℚ))) = [0, 0] ∧
      ¬ List.Nodup [(0 : Fin 2), 0] := by
  constructor
  · show greedyGo (List.finRange 2) _ = _
    rw [show List.finRange 2 = [0, 1] by decide]
    simp only [greedyGo, argminFin]
    rw [show List.finRange 2 = [0, 1] by decide]
    norm_num [sqDist, big2, List.foldl, Fin.ext_iff]
  · decide

/-- C2 (amended): the greedy assignment always returns one predicted index
per ground-truth chain (totality); and whenever every candidate entry of the
distance matrix is below the sentinel, every non-candidate entry at or above
it, and the `l`-th ground-truth chain (in evaluation order) has more than `l`
candidates, the assignment is injective and each ground-truth chain receives
a predicted chain from its own candidate set. -/
theorem find_optimal_permutation_valid {K L : ℕ} [NeZero K]
    (xmp : Fin K → Fin L → Pt) (xmt : Fin L → Pt) (C : Fin L → Finset (Fin K))
    (hcand : ∀ (l : Fin L), ∀ k ∈ C l, sqDist (xmp k l) (xmt l) < big2)
    (hsent : ∀ (l : Fin L), ∀ k, k ∉ C l → big2 ≤ sqDist (xmp k l) (xmt l))
    (hcard : ∀ l : Fin L, (l : ℕ) < (C l).card) :
    (find_optimal_permutation xmp xmt).length = L ∧
    (find_optimal_permutation xmp xmt).Nodup ∧
    ∀ (i : Fin L) (h : (i : ℕ) < (find_optimal_permutation xmp xmt).length),
      (find_optimal_permutation xmp xmt).get ⟨(i : ℕ), h⟩ ∈ C i := by
  have inv := greedyGo_invariant C (List.finRange L)
    (fun k l => sqDist (xmp k l) (xmt l)) ∅
    (by intro l2 _ k hk; exact absurd hk (Finset.not_mem_empty k))
    (by intro l2 _ k _ hkC; exact hcand l2 k hkC)
    (by intro l2 _ k _ hkC; exact hsent l2 k hkC)
    (by
      intro p hp
      rw [List.get_finRange]
      simpa using hcard ⟨p, by simpa using hp⟩)
  refine ⟨by simpa [find_optimal_permutation] using inv.1, ?_, ?_⟩
  · exact inv.2.2.1
  · intro i h
    have hq : (i : ℕ) < (List.finRange L).length := by rw [List.length_finRange]; exact i.isLt
    have := inv.2.2.2 (i : ℕ) h hq
    rwa [List.get_finRange, Fin.eta] at this

/-- Witness for the amended C2: a 2x2 all-candidate instance. -/
theorem find_optimal_permutation_valid_witness :
    (find_optimal_permutation (fun (_ : Fin 2) (_ : Fin 2) => ((0 : ℚ), (0 : ℚ), (0 : ℚ)))
        (fun _ => ((0 : ℚ), (0 : ℚ), (0 : ℚ)))).length = 2 ∧
      (find_optimal_permutation (fun (_ : Fin 2) (_ : Fin 2) => ((0 : ℚ), (0 : ℚ), (0 : ℚ)))
        (fun _ => ((0 : ℚ), (0 : ℚ), (0 : ℚ)))).Nodup := by
  have h := find_optimal_permutation_valid
    (fun (_ : Fin 2) (_ : Fin 2) => ((0 : ℚ), (0 : ℚ), (0 : ℚ)))
    (fun _ => ((0 : ℚ), (0 : ℚ), (0 : ℚ)))
    (fun _ => Finset.univ)
    (by intro l k _; norm_num [sqDist, big2])
    (by intro l k hk; exact absurd (Finset.mem_univ k) hk)
    (by intro l; rw [Finset.card_univ, Fintype.card_fin]; exact l.isLt)
  exact ⟨h.1, h.2.1⟩

/-! ## The anchor-trial loop and the returned deviation (claim C1)

Lines 302-316 of `cal_dockq_pdb` fold the anchor trials: each trial produces
a permutation `pm` and a global Kabsch deviation `rmsd`
(`cal_ca_kabsch_rmsd`), and `(pm_best, rmsd_min)` is replaced only when
`rmsd < rmsd_min` (first minimum wins), starting from `([], 1e9)`.  After
the loop, line 380 rounds and returns the loop variable `rmsd` — the LAST
trial's deviation — not `rmsd_min`.  The loop body is the per-trial oracle:
a trial is embedded as its resulting pair `(pm, rmsd)`. -/

/-- Python's `round(x, 5)`: scale by `10^5`, round half to even, rescale. -/
def roundHalfEven (q : ℚ) : ℤ :=
  if q - ⌊q⌋ < 1 / 2 then ⌊q⌋
  else if 1 / 2 < q - ⌊q⌋ then ⌊q⌋ + 1
  else if Even ⌊q⌋ then ⌊q⌋ else ⌊q⌋ + 1

/-- `round(x, 5)` of the source (exact-rational idealisation). -/
def round5 (q : ℚ) : ℚ := (roundHalfEven (q * 100000) : ℚ) / 100000

/-- The anchor-trial fold of lines 302-316: retained `(pm_best, rmsd_min)`. -/
def anchor_loop (trials : List (List ℕ × ℚ)) : List ℕ × ℚ :=
  trials.foldl (fun acc t => if t.2 < acc.2 then t else acc) ([], 1000000000)

/-- The deviation actually returned at lines 380-381: `round(rmsd, 5)` where
`rmsd` is the loop variable left over from the LAST trial (`none` embeds the
NameError when there is no trial at all). -/
def returned_rmsd (trials : List (List ℕ × ℚ)) : Option ℚ :=
  trials.getLast?.map (fun t => round5 t.2)

/-- C1: evaluation of the anchor loop at two trials with deviations
`1/10` then `1/5`.  The loop retains the minimum-deviation permutation
`[0, 1]` with `rmsd_min = 1/10` (the claim's first half holds), but the
caller receives `round(rmsd, 5) = 1/5`, the deviation of the LAST trial,
which is not the retained minimum and not `≤` every trial's deviation:
line 380 rounds the loop variable `rmsd` instead of `rmsd_min`. -/
theorem c1_returns_last_not_min :
    anchor_loop [([0, 1], 1 / 10), ([1, 0], 1 / 5)] = ([0, 1], 1 / 10) ∧
      returned_rmsd [([0, 1], 1 / 10), ([1, 0], 1 / 5)] = some (1 / 5) ∧
      ¬ (1 / 5 : ℚ) ≤ 1 / 10 := by
  refine ⟨?_, ?_, by norm_num⟩
  · norm_num [anchor_loop, List.foldl]
  · have hval : returned_rmsd [([0, 1], 1 / 10), ([1, 0], 1 / 5)] = some (round5 (1 / 5)) := rfl
    rw [hval]
    have h1 : (1 : ℚ) / 5 * 100000 = 20000 := by norm_num
    have h2 : roundHalfEven (20000 : ℚ) = 20000 := by
      have hf : ⌊(20000 : ℚ)⌋ = 20000 := by norm_num
      simp [roundHalfEven, hf]
    rw [round5, h1, h2]
    norm_num

/-! ## Anchor truth-chain selection (claim C6)

Lines 285-296 of `cal_dockq_pdb` build the candidate table `df` with a
default integer index `0, 1, 2, …` in construction order, sort it by
`num_chains` ascending then `true_seq_len` descending, and then read
`truth_cids[0]` and `df.pred_cid[0]`.  For a pandas Series over an integer
index, `s[0]` is LABEL-based lookup: it returns the row whose original label
is `0` — the first-constructed row — not the first row of the sorted order.
The sort is modelled by a stable sort on the label-row pairs (any
permutation produced by pandas' quicksort gives the same label lookup). -/

/-- One row of the candidate table `df`: the merged predicted-group chain
ids (`num_chains` is their count), the group's sequence length, the
ground-truth chain id, and `true_seq_len = mask.sum()` (valid residue
count). -/
structure MatchRow where
  pred_cid : List ℕ
  seq_len : ℕ
  truth_cid : ℕ
  true_seq_len : ℕ
deriving DecidableEq

/-- The sort key of `sort_values(by=['num_chains', 'true_seq_len'],
ascending=[True, False])`, lifted to label-row pairs. -/
def rowLE (a b : ℕ × MatchRow) : Prop :=
  a.2.pred_cid.length < b.2.pred_cid.length ∨
    (a.2.pred_cid.length = b.2.pred_cid.length ∧ b.2.true_seq_len ≤ a.2.true_seq_len)

instance : DecidableRel rowLE := fun a b => by
  unfold rowLE
  infer_instance

/-- The sorted dataframe: rows paired with their original labels
(`enum` = the default RangeIndex), then sorted by the key. -/
def dfSorted (rows : List MatchRow) : List (ℕ × MatchRow) :=
  List.insertionSort rowLE rows.enum

/-- Label-based lookup `series[0]` on the sorted dataframe: the entry whose
ORIGINAL index label is `0`. -/
def series_get0 (df : List (ℕ × MatchRow)) : Option MatchRow :=
  (df.find? (fun p => p.1 == 0)).map Prod.snd

/-- `anchor_truth = truth_cids[0]` of lines 293-294. -/
def anchor_truth (rows : List MatchRow) : Option ℕ :=
  (series_get0 (dfSorted rows)).map MatchRow.truth_cid

/-- `find?` returns the unique element satisfying the predicate. -/
theorem find?_unique : ∀ (l : List α) (p : α → Bool) (x : α), x ∈ l → p x = true →
    (∀ y ∈ l, p y = true → y = x) → l.find? p = some x := by
  intro l
  induction l with
  | nil => intro p x hx _ _; simp at hx
  | cons a t ih =>
    intro p x hx hpx huniq
    by_cases hpa : p a = true
    · rw [List.find?_cons_of_pos _ hpa]
      rw [huniq a (List.mem_cons_self a t) hpa]
    · rw [List.find?_cons_of_neg _ (by simpa using hpa)]
      have hxt : x ∈ t := by
        rcases List.mem_cons.mp hx with hxa | hxt
        · exact absurd (hxa ▸ hpx) (by simpa [hxa] using hpa)
        · exact hxt
      exact ih p x hxt hpx (fun y hy hpy => huniq y (List.mem_cons_of_mem a hy) hpy)

/-- C6 (amended): whatever the rows and the sort, the anchor ground-truth
chain is the one of the FIRST-CONSTRUCTED row of the candidate table (the
row labelled `0`), because `truth_cids[0]` is label-based pandas indexing;
the `num_chains`-then-`true_seq_len` sort has no effect on the selection. -/
theorem anchor_truth_is_first_row (rows : List MatchRow) :
    anchor_truth rows = rows.head?.map MatchRow.truth_cid := by
  cases rows with
  | nil => rfl
  | cons r rest =>
    have hperm := List.perm_insertionSort rowLE (r :: rest).enum
    have hmem : ((0 : ℕ), r) ∈ dfSorted (r :: rest) := by
      rw [dfSorted, hperm.mem_iff]
      exact List.mk_mem_enum_iff_getElem?.mpr (by simp)
    have hfind : (dfSorted (r :: rest)).find? (fun p => p.1 == 0) = some (0, r) := by
      apply find?_unique _ _ _ hmem (by simp)
      intro y hy hpy
      have hy2 : y ∈ (r :: rest).enum := (hperm.mem_iff).mp (by rwa [dfSorted] at hy)
      have hy0 : y.1 = 0 := by simpa using hpy
      obtain ⟨i, x⟩ := y
      simp only at hy0
      subst hy0
      have := List.mk_mem_enum_iff_getElem?.mp hy2
      simp only [List.getElem?_cons_zero, Option.some.injEq] at this
      rw [this]
    simp [anchor_truth, series_get0, hfind]

/-- The concrete candidate table for the C6 counterexample: two singleton
predicted groups; the first-constructed row has valid residue count 1, the
second has valid residue count 7. -/
def rowsC6 : List MatchRow := [⟨[0], 9, 0, 1⟩, ⟨[1], 9, 1, 7⟩]

/-- C6 counterexample: on `rowsC6` the anchor truth chain is chain `0`, the
truth chain of the first-constructed row, although the unique ground-truth
chain of largest valid residue count is chain `1` (7 > 1 valid residues):
the sorted order `[(1, …), (0, …)]` is ignored by the label lookup. -/
theorem c6_anchor_not_largest :
    anchor_truth rowsC6 = some 0 ∧
      (rowsC6.filter
        (fun a => rowsC6.all (fun b => b.true_seq_len ≤ a.true_seq_len))).map
          MatchRow.truth_cid = [1] ∧
      dfSorted rowsC6 = [(1, ⟨[1], 9, 1, 7⟩), (0, ⟨[0], 9, 0, 1⟩)] := by
  refine ⟨?_, by decide, by decide⟩
  rw [anchor_truth_is_first_row]
  rfl

/-! ## Rigid superposition engine (`kabsch_rotation`, `get_optimal_transform`)

`np.linalg.svd(C)` returns `V, _, W` with `C = V @ diag(s) @ W`, `V` and `W`
orthogonal and `s ≥ 0`.  The SVD is the oracle of this embedding: `V` and
`W` are explicit arguments of the embedded functions, and the theorems
constrain them by `C = V * diagonal s * W` together with orthogonality. -/

open scoped Matrix

section KabschDefs

variable {α : Type} [LinearOrderedField α] {n : ℕ}

/-- `V[:, -1] = -V[:, -1]` of the source (line 168). -/
def negLastCol (V : Matrix (Fin 3) (Fin 3) α) : Matrix (Fin 3) (Fin 3) α :=
  Matrix.of fun i j => if j = 2 then -V i j else V i j

/-- `kabsch_rotation` (lines 155-172) given the SVD factors: if
`det(V)*det(W) < 0` negate the last column of `V`, then return `V @ W`. -/
def kabsch_rotation (V W : Matrix (Fin 3) (Fin 3) α) : Matrix (Fin 3) (Fin 3) α :=
  if V.det * W.det < 0 then negLastCol V * W else V * W

/-- The covariance `C = P.transpose(-1, -2) @ Q` of line 156. -/
def cross_cov (P Q : Matrix (Fin n) (Fin 3) α) : Matrix (Fin 3) (Fin 3) α := Pᵀ * Q

/-- `.mean(-2)`: the centroid row of a point set. -/
def centroid (M : Matrix (Fin n) (Fin 3) α) : Fin 3 → α := fun j => (∑ i, M i j) / (n : α)

/-- A point set minus its own centroid row (`src_atoms - src_center`). -/
def center (M : Matrix (Fin n) (Fin 3) α) : Matrix (Fin n) (Fin 3) α :=
  Matrix.of fun i j => M i j - centroid M j

/-- `x @ r + t` with the translation row broadcast over all points. -/
def affine (M : Matrix (Fin n) (Fin 3) α) (R : Matrix (Fin 3) (Fin 3) α) (t : Fin 3 → α) :
    Matrix (Fin n) (Fin 3) α :=
  Matrix.of fun i j => (M * R) i j + t j

/-- `get_optimal_transform` (lines 112-129, `mask=None` path): the rotation
from the SVD factors of the centered cross covariance and the translation
`tgt_center - src_center @ r`. -/
def get_optimal_transform (src tgt : Matrix (Fin n) (Fin 3) α)
    (V W : Matrix (Fin 3) (Fin 3) α) : Matrix (Fin 3) (Fin 3) α × (Fin 3 → α) :=
  (kabsch_rotation V W,
   fun j => centroid tgt j - Matrix.vecMul (centroid src) (kabsch_rotation V W) j)

/-- The quantity under the square root of `cal_rmsd` (lines 84-87): mean
squared per-point deviation plus the `1e-6` epsilon.  `cal_rmsd` itself is
its square root — square-root monotonicity identifies comparisons of the two
scales (file header). -/
def cal_rmsd_sq (x1 x2 : Matrix (Fin n) (Fin 3) α) : α :=
  (∑ i, ∑ j, (x1 i j - x2 i j) ^ 2) / (n : α) + 1 / 1000000

/-- `kabsch_rmsd` (lines 89-95) on the squared scale: align the first point
set with the solved transform, then the squared deviation to the second. -/
def kabsch_rmsd_sq (t p : Matrix (Fin n) (Fin 3) α) (V W : Matrix (Fin 3) (Fin 3) α) : α :=
  cal_rmsd_sq (affine t (get_optimal_transform t p V W).1 (get_optimal_transform t p V W).2) p

end KabschDefs

/-- `cal_rmsd` over the reals (the source's `np.sqrt(... + eps)`). -/
noncomputable def cal_rmsd {n : ℕ} (x1 x2 : Matrix (Fin n) (Fin 3) ℝ) : ℝ :=
  Real.sqrt (cal_rmsd_sq x1 x2)

/-- `kabsch_rmsd` over the reals. -/
noncomputable def kabsch_rmsd {n : ℕ} (t p : Matrix (Fin n) (Fin 3) ℝ)
    (V W : Matrix (Fin 3) (Fin 3) ℝ) : ℝ :=
  cal_rmsd (affine t (get_optimal_transform t p V W).1 (get_optimal_transform t p V W).2) p

/-- The diagonal sign matrix by which negating the last column is a right
multiplication. -/
def lastFlip {α : Type} [LinearOrderedField α] : Matrix (Fin 3) (Fin 3) α :=
  Matrix.diagonal (fun j => if j = 2 then -1 else 1)

/-- Negating the last column is right multiplication by `lastFlip`. -/
theorem negLastCol_eq_mul {α : Type} [LinearOrderedField α] (V : Matrix (Fin 3) (Fin 3) α) :
    negLastCol V = V * lastFlip := by
  ext i j
  rw [negLastCol, lastFlip, Matrix.mul_diagonal]
  by_cases h : j = 2 <;> simp [h]

/-- An orthogonal matrix has determinant `1` or `-1`. -/
theorem det_mul_self_of_orthogonal {α : Type} [LinearOrderedField α]
    (V : Matrix (Fin 3) (Fin 3) α) (hV : Vᵀ * V = 1) : V.det * V.det = 1 := by
  have := congrArg Matrix.det hV
  rwa [Matrix.det_mul, Matrix.det_transpose, Matrix.det_one] at this

/-! ## Claim C3 (properness of the Kabsch rotation) -/

/-- C3 (confirmed): for any two equal-shaped point sets and any SVD of their
cross covariance (orthogonal factors `V`, `W` with
`C = V * diagonal s * W`), the rotation produced by `kabsch_rotation` is
orthogonal and has determinant `+1`: the reflection case is corrected by
negating the last column of `V` exactly when `det(V)*det(W) < 0`. -/
theorem kabsch_rotation_proper {α : Type} [LinearOrderedField α] {n : ℕ}
    (P Q : Matrix (Fin n) (Fin 3) α) (V W : Matrix (Fin 3) (Fin 3) α) (s : Fin 3 → α)
    (_hC : cross_cov P Q = V * Matrix.diagonal s * W)
    (hV : Vᵀ * V = 1) (hW : Wᵀ * W = 1) :
    (kabsch_rotation V W)ᵀ * kabsch_rotation V W = 1 ∧ (kabsch_rotation V W).det = 1 := by
  have hdV : V.det * V.det = 1 := det_mul_self_of_orthogonal V hV
  have hdW : W.det * W.det = 1 := det_mul_self_of_orthogonal W hW
  have hpm : V.det * W.det = 1 ∨ V.det * W.det = -1 := by
    have hsq : (V.det * W.det) * (V.det * W.det) = 1 := by
      calc (V.det * W.det) * (V.det * W.det) = (V.det * V.det) * (W.det * W.det) := by ring
      _ = 1 := by rw [hdV, hdW, one_mul]
    exact mul_self_eq_one_iff.mp hsq
  have hEE : lastFlipᵀ * (lastFlip : Matrix (Fin 3) (Fin 3) α) = 1 := by
    rw [lastFlip, Matrix.diagonal_transpose, Matrix.diagonal_mul_diagonal]
    have : (fun j : Fin 3 => (if j = 2 then (-1 : α) else 1) * (if j = 2 then -1 else 1)) =
        fun _ => 1 := by
      funext j
      by_cases h : j = 2 <;> simp [h]
    rw [this, Matrix.diagonal_one]
  have hdE : (lastFlip : Matrix (Fin 3) (Fin 3) α).det = -1 := by
    rw [lastFlip, Matrix.det_diagonal, Fin.prod_univ_three]
    rw [if_neg (by decide : ¬ (0 : Fin 3) = 2), if_neg (by decide : ¬ (1 : Fin 3) = 2),
      if_pos rfl]
    ring
  by_cases hd : V.det * W.det < 0
  · have hm1 : V.det * W.det = -1 := by
      rcases hpm with h1 | h1
      · rw [h1] at hd
        exact absurd hd (by norm_num)
      · exact h1
    have hrot : kabsch_rotation V W = V * lastFlip * W := by
      rw [kabsch_rotation, if_pos hd, negLastCol_eq_mul]
    constructor
    · rw [hrot]
      calc (V * lastFlip * W)ᵀ * (V * lastFlip * W)
          = Wᵀ * (lastFlipᵀ * ((Vᵀ * V) * lastFlip)) * W := by
            rw [Matrix.transpose_mul, Matrix.transpose_mul]
            simp only [Matrix.mul_assoc]
      _ = 1 := by rw [hV, Matrix.one_mul, hEE, Matrix.mul_one, hW]
    · rw [hrot, Matrix.det_mul, Matrix.det_mul, hdE]
      calc V.det * -1 * W.det = -(V.det * W.det) := by ring
      _ = 1 := by rw [hm1]; ring
  · have h1 : V.det * W.det = 1 := by
      rcases hpm with h1 | h1
      · exact h1
      · rw [h1] at hd
        exact absurd (by norm_num : (-1 : α) < 0) hd
    have hrot : kabsch_rotation V W = V * W := by rw [kabsch_rotation, if_neg hd]
    constructor
    · rw [hrot]
      calc (V * W)ᵀ * (V * W) = Wᵀ * ((Vᵀ * V) * W) := by
            rw [Matrix.transpose_mul]
            simp only [Matrix.mul_assoc]
      _ = 1 := by rw [hV, Matrix.one_mul, hW]
    · rw [hrot, Matrix.det_mul, h1]

/-- Witness for C3 at the identity instance over `ℚ`. -/
theorem kabsch_rotation_proper_witness :
    (kabsch_rotation (1 : Matrix (Fin 3) (Fin 3) ℚ) 1)ᵀ * kabsch_rotation 1 1 = 1 ∧
      (kabsch_rotation (1 : Matrix (Fin 3) (Fin 3) ℚ) 1).det = 1 :=
  kabsch_rotation_proper (n := 3) (1 : Matrix (Fin 3) (Fin 3) ℚ) 1 1 1 (fun _ => 1)
    (by simp [cross_cov, Matrix.diagonal_one]) (by simp) (by simp)

/-- Centroid of a rotated point set: the centroid rotates. -/
theorem centroid_mul {α : Type} [LinearOrderedField α] {n : ℕ}
    (A : Matrix (Fin n) (Fin 3) α) (R : Matrix (Fin 3) (Fin 3) α) :
    centroid (A * R) = fun j => ∑ k, centroid A k * R k j := by
  funext j
  rw [centroid]
  simp only [Matrix.mul_apply]
  rw [Finset.sum_comm, Finset.sum_div]
  congr 1
  funext k
  rw [centroid, ← Finset.sum_mul, mul_div_right_comm]

/-- Centroid of a rigidly moved point set. -/
theorem centroid_affine {α : Type} [LinearOrderedField α] {n : ℕ} (hn : 0 < n)
    (A : Matrix (Fin n) (Fin 3) α) (R : Matrix (Fin 3) (Fin 3) α) (t : Fin 3 → α) :
    centroid (affine A R t) = fun j => Matrix.vecMul (centroid A) R j + t j := by
  have hnz : (n : α) ≠ 0 := Nat.cast_ne_zero.mpr hn.ne'
  funext j
  rw [centroid]
  simp only [affine, Matrix.of_apply]
  rw [Finset.sum_add_distrib, Finset.sum_const, Finset.card_univ, Fintype.card_fin, add_div]
  congr 1
  · have : (∑ i, (A * R) i j) / (n : α) = centroid (A * R) j := rfl
    rw [this, centroid_mul]
    simp [Matrix.vecMul, Matrix.dotProduct]
  · rw [nsmul_eq_mul]
    exact mul_div_cancel_left₀ _ hnz

/-- Centering commutes with a rigid motion: the translation cancels and the
rotation factors out. -/
theorem center_affine {α : Type} [LinearOrderedField α] {n : ℕ} (hn : 0 < n)
    (A : Matrix (Fin n) (Fin 3) α) (R : Matrix (Fin 3) (Fin 3) α) (t : Fin 3 → α) :
    center (affine A R t) = center A * R := by
  ext i j
  simp only [center, Matrix.of_apply]
  rw [centroid_affine hn A R t]
  simp only [affine, Matrix.of_apply, Matrix.vecMul, Matrix.dotProduct, Matrix.mul_apply,
    sub_mul, Finset.sum_sub_distrib]
  ring

/-- Left cancellation by a matrix of nonzero determinant. -/
theorem mul_left_cancel_of_det (T X Y : Matrix (Fin 3) (Fin 3) ℝ)
    (hdet : T.det ≠ 0) (h : T * X = T * Y) : X = Y := by
  have hunit : IsUnit T.det := isUnit_iff_ne_zero.mpr hdet
  have h2 := congrArg (fun M => T⁻¹ * M) h
  simp only at h2
  rwa [← Matrix.mul_assoc, ← Matrix.mul_assoc, Matrix.nonsing_inv_mul T hunit,
    Matrix.one_mul, Matrix.one_mul] at h2

/-! ## Claim C4 (round-trip recovery of a rigid motion) -/

/-- C4 (confirmed): for a non-degenerate point set `A` (positive singular
values of the centered covariance) and a proper rotation `R0` with
translation `t0` applied to it, `get_optimal_transform` recovers exactly
`(R0, t0)` — the translation being `target centroid - source centroid @ R` —
and the post-alignment deviation of `kabsch_rmsd` is exactly
`sqrt(1e-6)` (the epsilon added under the square root of `cal_rmsd`).
`V, s, W` is any SVD of the centered cross covariance. -/
theorem get_optimal_transform_roundtrip {n : ℕ} (hn : 0 < n)
    (A : Matrix (Fin n) (Fin 3) ℝ) (R0 : Matrix (Fin 3) (Fin 3) ℝ) (t0 : Fin 3 → ℝ)
    (V W : Matrix (Fin 3) (Fin 3) ℝ) (s : Fin 3 → ℝ)
    (hR0 : R0ᵀ * R0 = 1) (hdR0 : R0.det = 1)
    (hV : Vᵀ * V = 1) (hW : Wᵀ * W = 1) (hs : ∀ i, 0 < s i)
    (hC : cross_cov (center A) (center (affine A R0 t0)) = V * Matrix.diagonal s * W) :
    get_optimal_transform A (affine A R0 t0) V W = (R0, t0) ∧
    kabsch_rmsd_sq A (affine A R0 t0) V W = 1 / 1000000 ∧
    kabsch_rmsd A (affine A R0 t0) V W = Real.sqrt (1 / 1000000) := by
  have hcent := center_affine hn A R0 t0
  -- the centered covariance is S * R0 with S = PᵀP
  have hC2 : (center A)ᵀ * center A * R0 = V * Matrix.diagonal s * W := by
    rw [← hC, cross_cov, hcent, Matrix.mul_assoc]
  -- orthogonality both ways
  have hVV : V * Vᵀ = 1 := Matrix.mul_eq_one_comm.mp hV
  have hWW : W * Wᵀ = 1 := Matrix.mul_eq_one_comm.mp hW
  have hRR : R0 * R0ᵀ = 1 := Matrix.mul_eq_one_comm.mp hR0
  -- abbreviations
  set S : Matrix (Fin 3) (Fin 3) ℝ := (center A)ᵀ * center A with hS
  set T : Matrix (Fin 3) (Fin 3) ℝ := V * Matrix.diagonal s * Vᵀ with hT
  set U : Matrix (Fin 3) (Fin 3) ℝ := V * W with hU
  have hTU : T * U = S * R0 := by
    rw [hT, hU, hC2]
    calc V * Matrix.diagonal s * Vᵀ * (V * W)
        = V * Matrix.diagonal s * (Vᵀ * V * W) := by simp only [Matrix.mul_assoc]
    _ = V * Matrix.diagonal s * W := by rw [hV, Matrix.one_mul]
  have hTt : Tᵀ = T := by
    rw [hT]
    rw [Matrix.transpose_mul, Matrix.transpose_mul, Matrix.transpose_transpose,
      Matrix.diagonal_transpose, Matrix.mul_assoc]
  have hSt : Sᵀ = S := by
    rw [hS, Matrix.transpose_mul, Matrix.transpose_transpose]
  have hUU : U * Uᵀ = 1 := by
    rw [hU, Matrix.transpose_mul]
    calc V * W * (Wᵀ * Vᵀ) = V * (W * Wᵀ) * Vᵀ := by simp only [Matrix.mul_assoc]
    _ = 1 := by rw [hWW, Matrix.mul_one, hVV]
  have hT2S2 : T ^ 2 = S ^ 2 := by
    have h1 : T * T = (T * U) * (T * U)ᵀ := by
      rw [Matrix.transpose_mul]
      calc T * T = T * 1 * Tᵀ := by rw [Matrix.mul_one, hTt]
      _ = T * (U * Uᵀ) * Tᵀ := by rw [hUU]
      _ = T * U * (Uᵀ * Tᵀ) := by simp only [Matrix.mul_assoc]
    have h2 : S * S = (S * R0) * (S * R0)ᵀ := by
      rw [Matrix.transpose_mul]
      calc S * S = S * 1 * Sᵀ := by rw [Matrix.mul_one, hSt]
      _ = S * (R0 * R0ᵀ) * Sᵀ := by rw [hRR]
      _ = S * R0 * (R0ᵀ * Sᵀ) := by simp only [Matrix.mul_assoc]
    rw [pow_two, pow_two, h1, h2, hTU]
  -- positive semidefiniteness of both sides
  have hconjT : ∀ (M : Matrix (Fin 3) (Fin 3) ℝ), Mᴴ = Mᵀ := fun M =>
    Matrix.conjTranspose_eq_transpose_of_trivial M
  have hSpsd : S.PosSemidef := by
    have h := Matrix.posSemidef_conjTranspose_mul_self (center A)
    rwa [Matrix.conjTranspose_eq_transpose_of_trivial] at h
  have hDpsd : (Matrix.diagonal s).PosSemidef :=
    Matrix.PosSemidef.diagonal (Pi.le_def.mpr fun i => (hs i).le)
  have hTpsd : T.PosSemidef := by
    have h := hDpsd.mul_mul_conjTranspose_same V
    rwa [hconjT V] at h
  -- unique positive semidefinite square root: T = S
  have hTS : T = S := hTpsd.eq_of_sq_eq_sq hSpsd hT2S2
  -- T is invertible since det T = prod s > 0
  have hdVsq : V.det * V.det = 1 := det_mul_self_of_orthogonal V hV
  have hdetT : T.det ≠ 0 := by
    rw [hT, Matrix.det_mul, Matrix.det_mul, Matrix.det_transpose, Matrix.det_diagonal]
    have hprod : 0 < ∏ i, s i := Finset.prod_pos (fun i _ => hs i)
    intro hzero
    have : V.det * (∏ i, s i) * V.det = V.det * V.det * ∏ i, s i := by ring
    rw [this, hdVsq, one_mul] at hzero
    exact hprod.ne' hzero
  -- cancel T: the rotation is recovered
  have hUR : U = R0 := by
    have hTUR : T * U = T * R0 := by rw [hTU, hTS]
    exact mul_left_cancel_of_det T U R0 hdetT hTUR
  -- no reflection correction fires: det V * det W = det R0 = 1
  have hdVW : V.det * W.det = 1 := by
    have : U.det = 1 := by rw [hUR, hdR0]
    rwa [hU, Matrix.det_mul] at this
  have hrot : kabsch_rotation V W = R0 := by
    rw [kabsch_rotation, if_neg (by rw [hdVW]; norm_num), ← hU, hUR]
  -- translation recovery
  have htrans : (fun j => centroid (affine A R0 t0) j -
      Matrix.vecMul (centroid A) R0 j) = t0 := by
    funext j
    have hb := congrFun (centroid_affine hn A R0 t0) j
    simp only at hb
    rw [hb]
    ring
  have hfix : get_optimal_transform A (affine A R0 t0) V W = (R0, t0) := by
    rw [get_optimal_transform, hrot, htrans]
  refine ⟨hfix, ?_, ?_⟩
  · rw [kabsch_rmsd_sq, hfix]
    simp only [cal_rmsd_sq, sub_self]
    simp
  · rw [kabsch_rmsd, cal_rmsd, hfix]
    congr 1
    simp only [cal_rmsd_sq, sub_self]
    simp

/-- A non-degenerate 4-point set: the three unit points and `(1,1,1)`.  Its
centered covariance is the identity. -/
def AW4 : Matrix (Fin 4) (Fin 3) ℝ :=
  Matrix.of fun i j => if (i : ℕ) = 3 ∨ (i : ℕ) = (j : ℕ) then 1 else 0

/-- Witness for C4: the identity motion on `AW4` is recovered exactly and
the post-alignment deviation is `sqrt(1e-6)`. -/
theorem get_optimal_transform_roundtrip_witness :
    get_optimal_transform AW4 (affine AW4 1 0) 1 1 = (1, 0) ∧
      kabsch_rmsd_sq AW4 (affine AW4 1 0) 1 1 = 1 / 1000000 ∧
      kabsch_rmsd AW4 (affine AW4 1 0) 1 1 = Real.sqrt (1 / 1000000) := by
  have hC : cross_cov (center AW4) (center (affine AW4 1 0)) =
      1 * Matrix.diagonal (fun _ => (1 : ℝ)) * 1 := by
    have haff : affine AW4 (1 : Matrix (Fin 3) (Fin 3) ℝ) 0 = AW4 := by
      ext i j
      simp [affine]
    rw [haff, Matrix.one_mul, Matrix.mul_one, Matrix.diagonal_one]
    have hv3 : ((3 : Fin 4) : ℕ) = 3 := by decide
    have hcent : ∀ j, centroid AW4 j = 1 / 2 := by
      intro j
      rw [centroid, Fin.sum_univ_four]
      fin_cases j <;> norm_num [AW4, hv3, Fin.ext_iff]
    ext i j
    rw [cross_cov, Matrix.mul_apply, Fin.sum_univ_four]
    simp only [Matrix.transpose_apply, center, Matrix.of_apply, hcent]
    fin_cases i <;> fin_cases j <;> norm_num [AW4, Matrix.one_apply, hv3, Fin.ext_iff]
  exact get_optimal_transform_roundtrip (by norm_num) AW4 1 0 1 1 (fun _ => 1)
    (by simp) (by simp) (by simp) (by simp) (fun i => one_pos) hC
